import Mathlib

/-!
Verification of the dev-kit Asset Manifest Generator.

A shallow embedding of `src/commands/assets.ts` (the image asset manifest
generator) and proofs about it.

Modelling conventions, stated once here:

* JavaScript strings are modelled by Lean `String` (a list of characters).
  The per-character case maps `toLowerCase` / `toUpperCase` are modelled by
  the ASCII maps `Char.toLower` / `Char.toUpper`; every character class in
  the source's regexes (`[a-z]`, `[A-Z]`, `[a-zA-Z0-9_]`, ...) is an ASCII
  class, and all concrete inputs used below are ASCII, where the two agree.
  The JavaScript `\s` class is modelled exactly (ECMA-262 WhiteSpace ∪
  LineTerminator ∪ Zs).
* Node's `path.extname` / `path.basename` are modelled for POSIX paths;
  the generator only ever passes base names (no separators) to them.
* Regex `replace` chains are modelled by structurally recursive functions
  over `List Char`, one per regex, matching the left-to-right,
  non-overlapping semantics of `String.prototype.replace` with the `g` flag.
-/

namespace DevKit

/-! ## Character classes -/

/-- ASCII `[a-z]`. -/
def isAsciiLower (c : Char) : Bool := 97 ≤ c.toNat && c.toNat ≤ 122

/-- ASCII `[A-Z]`. -/
def isAsciiUpper (c : Char) : Bool := 65 ≤ c.toNat && c.toNat ≤ 90

/-- ASCII `[0-9]`. -/
def isAsciiDigit (c : Char) : Bool := 48 ≤ c.toNat && c.toNat ≤ 57

/-- ASCII `[a-zA-Z]`. -/
def isAsciiAlpha (c : Char) : Bool := isAsciiLower c || isAsciiUpper c

/-- The JavaScript regex class `\s`: ECMA-262 WhiteSpace, LineTerminator and
the Unicode Zs category. -/
def isJsWhitespace (c : Char) : Bool :=
  c.toNat = 9 || c.toNat = 10 || c.toNat = 11 || c.toNat = 12 || c.toNat = 13 ||
  c.toNat = 32 || c.toNat = 0xa0 || c.toNat = 0x1680 ||
  (0x2000 ≤ c.toNat && c.toNat ≤ 0x200a) ||
  c.toNat = 0x2028 || c.toNat = 0x2029 || c.toNat = 0x202f ||
  c.toNat = 0x205f || c.toNat = 0x3000 || c.toNat = 0xfeff

/-- The class `[_\s\-\.]` used by `toCamel`. -/
def isSepCamel (c : Char) : Bool := c = '_' || isJsWhitespace c || c = '-' || c = '.'

/-- The class `[\s_\.]` used by `toKebabCase` (note: `-` is *not* in it). -/
def isSepKebab (c : Char) : Bool := isJsWhitespace c || c = '_' || c = '.'

/-- The class `[\s\-\.]` used by `toSnakeCase` (note: `_` is *not* in it). -/
def isSepSnake (c : Char) : Bool := isJsWhitespace c || c = '-' || c = '.'

/-- Characters kept by `toKebabCase`'s filter `[^a-z0-9\-]/g → ""`. -/
def isKebabKeep (c : Char) : Bool := isAsciiLower c || isAsciiDigit c || c = '-'

/-- Characters kept by `toSnakeCase`'s filter `[^a-z0-9_]/g → ""`. -/
def isSnakeKeep (c : Char) : Bool := isAsciiLower c || isAsciiDigit c || c = '_'

/-- ASCII `[a-zA-Z0-9]`, the class kept by `toCamel`'s final filter. -/
def isCamelKeep (c : Char) : Bool := isAsciiAlpha c || isAsciiDigit c

/-- ASCII `[a-zA-Z0-9_]`, the identifier-character class of
`toValidIdentifier`. -/
def isIdentChar (c : Char) : Bool := isAsciiAlpha c || isAsciiDigit c || c = '_'

/-! ## Regex replacement pipelines

`toKebabCase` and `toSnakeCase` differ only in the inserted separator, the
separator class of the second replace and the keep class of the filter, so
the five-stage pipeline is defined once, parameterised by those three.  -/

/-- `replace(/([a-z])([A-Z])/g, "$1<sep>$2")`: insert `sep` between a
lower-case letter immediately followed by an upper-case letter; the regex
consumes both letters, so scanning resumes after the pair. -/
def insDash (sep : Char) : List Char → List Char
  | a :: b :: rest =>
    if isAsciiLower a && isAsciiUpper b then a :: sep :: b :: insDash sep rest
    else a :: insDash sep (b :: rest)
  | l => l

/-- `replace(/CLASS+/g, "<sep>")`: each maximal run of characters in `cls`
is replaced by a single `sep`.  `inRun` records whether the previous
character belonged to the current run. -/
def sepRuns (sep : Char) (cls : Char → Bool) (inRun : Bool) : List Char → List Char
  | [] => []
  | c :: rest =>
    if cls c then
      if inRun then sepRuns sep cls true rest
      else sep :: sepRuns sep cls true rest
    else c :: sepRuns sep cls false rest

/-- `replace(/^<sep>/, "")`, the first half of `replace(/^-|-$/g, "")`:
at most one leading separator is removed. -/
def dropLeadSep (sep : Char) : List Char → List Char
  | c :: rest => if c = sep then rest else c :: rest
  | [] => []

/-- `replace(/<sep>$/, "")`: at most one trailing separator is removed. -/
def dropTrailSep (sep : Char) (l : List Char) : List Char :=
  if l.getLast? = some sep then l.dropLast else l

/-- `replace(/^-|-$/g, "")` (resp. `/^_|_$/g`): the regex removes one
leading and one trailing separator. -/
def trimSep (sep : Char) (l : List Char) : List Char :=
  dropTrailSep sep (dropLeadSep sep l)

/-- The shared five-stage pipeline of `toKebabCase`/`toSnakeCase`:
insert `sep` on case boundaries, replace runs of `cls` by `sep`,
lower-case, drop characters outside `keep`, collapse runs of `sep`
(the `"-+" → "-"` replace is `sepRuns` with the one-character class
`{sep}`), and trim one leading/trailing `sep`. -/
def caseConvert (sep : Char) (cls keep : Char → Bool) (l : List Char) : List Char :=
  trimSep sep
    (sepRuns sep (fun c => c = sep) false
      (List.filter keep
        (List.map Char.toLower
          (sepRuns sep cls false (insDash sep l)))))

/-- `toKebabCase` from `assets.ts` (lines 26–34). -/
def toKebabCase (str : String) : String :=
  ⟨caseConvert '-' isSepKebab isKebabKeep str.data⟩

/-- `toSnakeCase` from `assets.ts` (lines 36–44). -/
def toSnakeCase (str : String) : String :=
  ⟨caseConvert '_' isSepSnake isSnakeKeep str.data⟩

/-- The first replace of `toCamel`:
`replace(/[_\s\-\.]+(.)?/g, (_, c) => (c ? c.toUpperCase() : ""))`.
A maximal run of separators is removed and the single character following
the run (if any) is upper-cased; scanning resumes after that character.
`inRun = true` means the scanner is inside a separator run. -/
def camelRuns (inRun : Bool) : List Char → List Char
  | [] => []
  | c :: rest =>
    if isSepCamel c then camelRuns true rest
    else if inRun then c.toUpper :: camelRuns false rest
    else c :: camelRuns false rest

/-- `replace(/^[A-Z]/, m => m.toLowerCase())`: lower-case the first
character when it is ASCII upper-case. -/
def lowerFirst : List Char → List Char
  | [] => []
  | c :: rest => if isAsciiUpper c then c.toLower :: rest else c :: rest

/-- `toCamel` from `assets.ts` (lines 19–24). -/
def toCamel (str : String) : String :=
  ⟨List.filter isCamelKeep (lowerFirst (camelRuns false str.data))⟩

/-! ## `path.extname` and `path.basename` (POSIX) -/

/-- The base-name part of a POSIX path: trailing `/` separators are
ignored, then the suffix after the last `/` is taken.  (Node returns `"/"`
for an all-slash path where this returns `""`; both normalise to the same
string under every case conversion, and the generator never passes such
paths.) -/
def posixBase (l : List Char) : List Char :=
  ((l.reverse.dropWhile (fun c => c = '/')).takeWhile (fun c => c ≠ '/')).reverse

/-- Split a base name into the part before the last dot and the extension
starting at the last dot: `extSplit b = (n, e)` with `b = n ++ e`, where
`e` is empty when `b` contains no dot, and otherwise starts with the last
dot of `b`. -/
def extSplit : List Char → List Char × List Char
  | [] => ([], [])
  | c :: rest =>
    if c = '.' ∧ rest.all (fun d => d ≠ '.') then ([], c :: rest)
    else
      let p := extSplit rest
      (c :: p.1, p.2)

/-- Node's `path.extname`: the extension of the base name, from its last
dot; empty when there is no dot, when the only dot is the leading dot of a
dotfile, or for the special base name `".."`. -/
def extname (p : String) : String :=
  let b := posixBase p.data
  if b = ['.', '.'] then ""
  else
    let s := extSplit b
    if s.1 = [] then "" else ⟨s.2⟩

/-- Node's `path.basename(p, ext)`: the base name, with one occurrence of
the suffix `ext` removed when `ext` is non-empty and is a proper suffix of
the base name (Node keeps the base name whole when it *equals* `ext`). -/
def basenameSuffix (p ext : String) : String :=
  let b := posixBase p.data
  if ext.data ≠ [] ∧ b ≠ ext.data ∧ ext.data.IsSuffix b then
    ⟨b.take (b.length - ext.data.length)⟩
  else ⟨b⟩

/-! ## `convertImageName` -/

/-- The naming convention `"kebab-case" | "snake_case" | "any"`. -/
inductive NameCase where
  | kebab
  | snake
  | any
deriving DecidableEq

/-- `convertImageName` from `assets.ts` (lines 46–64): for `any` the
identity; otherwise the base name (extension split off with
`path.extname`/`path.basename`) is case-converted and the extension is
re-appended verbatim. -/
def convertImageName (fileName : String) (nameCase : NameCase) : String :=
  match nameCase with
  | .any => fileName
  | _ =>
    let ext := extname fileName
    let nameWithoutExt := basenameSuffix fileName ext
    match nameCase with
    | .kebab => toKebabCase nameWithoutExt ++ ext
    | .snake => toSnakeCase nameWithoutExt ++ ext
    | .any => fileName

/-! ## `toValidIdentifier` -/

/-- The test `/^[a-zA-Z_]/.test(s)`: does the string start with an ASCII
letter or underscore?  (False on the empty string.) -/
def startsIdent : List Char → Bool
  | c :: _ => isAsciiAlpha c || c = '_'
  | [] => false

/-- `toValidIdentifier` from `assets.ts` (lines 66–69): replace every
character outside `[a-zA-Z0-9_]` by `_`; if the result does not start with
`[a-zA-Z_]` (in particular if it is empty), prefix `_`. -/
def toValidIdentifier (str : String) : String :=
  let cleaned := str.data.map (fun c => if isIdentChar c then c else '_')
  if startsIdent cleaned then ⟨cleaned⟩ else ⟨'_' :: cleaned⟩

/-- A syntactically valid identifier: nonempty, starting with `[a-zA-Z_]`,
all characters in `[a-zA-Z0-9_]`. -/
def isValidIdent (s : String) : Bool :=
  startsIdent s.data && s.data.all isIdentChar

/-- JavaScript `a || b` on strings: `""` is the only falsy string. -/
def jsOr (a b : String) : String := if a = "" then b else a

/-! ## `ensureUnique` -/

/-- JavaScript `Set.add`: append the element when it is not yet present. -/
def addSet (s : List String) (x : String) : List String :=
  if x ∈ s then s else s ++ [x]

/-- The search loop of `ensureUnique`: starting at candidate index `i`
(the source starts at `2`), return the first `i` such that
`name + String(i)` is not in `used`.  The source's `while` loop is
unbounded; `used.length + 1` probes suffice because the candidates are
pairwise distinct and at most `used.length` of them can be taken
(`firstFreeAux_spec` below), so the fuel-exhausted branch is never
reached with the fuel `ensureUnique` supplies. -/
def firstFreeAux (name : String) (used : List String) : Nat → Nat → Nat
  | 0, i => i
  | fuel + 1, i =>
    if name ++ Nat.repr i ∈ used then firstFreeAux name used fuel (i + 1) else i

/-- `ensureUnique` from `assets.ts` (lines 71–77): return `name` itself if
unused, otherwise `name` with the first free integer suffix `≥ 2`
appended; the returned name is added to `used`. -/
def ensureUnique (name : String) (used : List String) : String × List String :=
  if name ∈ used then
    let n := name ++ Nat.repr (firstFreeAux name used (used.length + 1) 2)
    (n, addSet used n)
  else (name, addSet used name)

/-- A sequence of `ensureUnique` calls threading one `used` set, returning
the allocated identifiers in order. -/
def allocSeq : List String → List String → List String
  | [], _ => []
  | n :: ns, used =>
    let r := ensureUnique n used
    r.1 :: allocSeq ns r.2

/-! ## The rename engine over a flat directory

`renameImagesInDirectory` (lines 130–178) is modelled over a single flat
directory: a file system is a list of `(name, content)` pairs (contents
are opaque tags, kept to observe overwrites), so `path.basename` of a file
path is the path itself and `path.join(path.dirname p, n) = n`.  The
`caseInsensitive` flag selects whether `existsSync` and `fs.rename`
resolve names case-insensitively (Windows/macOS) or exactly (Linux). -/

/-- Name equality as resolved by the file system. -/
def fsEqName (caseInsensitive : Bool) (a b : String) : Bool :=
  if caseInsensitive then ⟨a.data.map Char.toLower⟩ == (⟨b.data.map Char.toLower⟩ : String)
  else a == b

/-- `existsSync`. -/
def existsSync (ci : Bool) (fs : List (String × Nat)) (p : String) : Bool :=
  fs.any (fun e => fsEqName ci e.1 p)

/-- `fs.rename src dst`: fails (`none`) when `src` does not resolve;
otherwise the source entry is removed and the destination entry is
(re)created with the source's content, silently replacing any existing
entry at `dst` (POSIX rename / `MOVEFILE_REPLACE_EXISTING`). -/
def fsRename (ci : Bool) (fs : List (String × Nat)) (src dst : String) :
    Option (List (String × Nat)) :=
  match fs.find? (fun e => fsEqName ci e.1 src) with
  | none => none
  | some e =>
    some ((fs.filter (fun e' => !fsEqName ci e'.1 src && !fsEqName ci e'.1 dst)) ++ [(dst, e.2)])

/-- The image-extension allow-list (`IMAGE_EXTS`, lines 8–17). -/
def IMAGE_EXTS : List String :=
  [".png", ".jpg", ".jpeg", ".webp", ".gif", ".bmp", ".svg", ".avif"]

/-- `walk` (lines 79–94) over a flat directory: the directory listing in
order, filtered to image extensions (extension lower-cased for the
membership test) and excluding `index.ts`. -/
def walkFlat (fs : List (String × Nat)) : List String :=
  (fs.map (fun e => e.1)).filter
    (fun n => IMAGE_EXTS.contains ⟨(extname n).data.map Char.toLower⟩ && !(n == "index.ts"))

/-- JavaScript `Map.set`: overwrite the entry for the key when present,
otherwise append. -/
def mapSet (m : List (String × String)) (k v : String) : List (String × String) :=
  if m.any (fun e => e.1 == k) then m.map (fun e => if e.1 == k then (k, v) else e)
  else m ++ [(k, v)]

/-- Errors the rename engine can raise. -/
inductive RenameErr where
  /-- `Cannot rename <src> to <dst>: target file already exists` (line 155). -/
  | targetExists (src dst : String)
  /-- An `fs.rename` on a missing path (`ENOENT`). -/
  | enoent (p : String)
deriving DecidableEq

/-- The `for (const filePath of allFiles)` loop of
`renameImagesInDirectory` (lines 142–175), acting on the flat file
system. -/
def renameLoop (ci : Bool) (nameCase : NameCase) :
    List (String × Nat) → List (String × String) → List String →
    Except RenameErr (List (String × Nat) × List (String × String))
  | fs, renameMap, [] => .ok (fs, renameMap)
  | fs, renameMap, filePath :: rest =>
    let fileName := filePath
    let convertedName := convertImageName fileName nameCase
    if fileName = convertedName then renameLoop ci nameCase fs renameMap rest
    else
      let newPath := convertedName
      if existsSync ci fs newPath ∧
          (⟨fileName.data.map Char.toLower⟩ : String) ≠ ⟨convertedName.data.map Char.toLower⟩ then
        .error (.targetExists fileName convertedName)
      else if (⟨fileName.data.map Char.toLower⟩ : String) = ⟨convertedName.data.map Char.toLower⟩ ∧
          fileName ≠ convertedName then
        let tempPath := fileName ++ ".tmp"
        match fsRename ci fs filePath tempPath with
        | none => .error (.enoent filePath)
        | some fs1 =>
          match fsRename ci fs1 tempPath newPath with
          | none => .error (.enoent tempPath)
          | some fs2 => renameLoop ci nameCase fs2 (mapSet renameMap filePath newPath) rest
      else
        match fsRename ci fs filePath newPath with
        | none => .error (.enoent filePath)
        | some fs1 => renameLoop ci nameCase fs1 (mapSet renameMap filePath newPath) rest

/-- `renameImagesInDirectory` (lines 130–178) over the flat directory:
no-op for `any`, otherwise the loop over the walk listing, returning the
final file system and the rename map. -/
def renameImagesInDirectory (ci : Bool) (fs : List (String × Nat)) (nameCase : NameCase) :
    Except RenameErr (List (String × Nat) × List (String × String)) :=
  if nameCase = .any then .ok (fs, [])
  else renameLoop ci nameCase fs [] (walkFlat fs)

/-! ## The manifest tree

JavaScript values reachable in the generated tree: strings (leaf code
fragments), arrays (handled, but never produced by `setInTree`) and plain
objects, whose fields keep insertion order as in V8.  The inductive is a
flat mutual family (rather than `List`-nested) so that every function on
it is structurally recursive and kernel-reducible. -/

mutual
inductive JsVal where
  | str (s : String)
  | arr (elems : JsArr)
  | obj (fields : JsFields)
inductive JsArr where
  | nil
  | cons (v : JsVal) (rest : JsArr)
inductive JsFields where
  | nil
  | cons (k : String) (v : JsVal) (rest : JsFields)
end

/-- Property read `node[key]` on an object. -/
def objLookup : JsFields → String → Option JsVal
  | .nil, _ => none
  | .cons k v rest, key => if k = key then some v else objLookup rest key

/-- Property write `node[key] = val` on an object: overwrite in place,
else append (V8 insertion order). -/
def objSet : JsFields → String → JsVal → JsFields
  | .nil, key, val => .cons key val .nil
  | .cons k v rest, key, val =>
    if k = key then .cons k val rest else .cons k v (objSet rest key val)

/-- JavaScript truthiness of the values in the tree: only the empty
string is falsy. -/
def truthy : JsVal → Bool
  | .str s => !(s == "")
  | .arr _ => true
  | .obj _ => true

/-- `setInTree` (lines 96–104): descend through `pathParts`, creating `{}`
nodes where `node[part]` is falsy, and assign the leaf at the last part.
The source module is an ES module, hence strict mode: descending into (or
assigning onto) a *string* node attempts to create a property on a
primitive and raises a `TypeError`, modelled as `.error ()`.  (Reading a
property of a string primitive is modelled as `undefined`, which is exact
for every key the generator can produce except numeric indices and
`"length"`, none of which occur in the claims below.)  The source never
calls this with an empty `pathParts`. -/
def setInTree : JsVal → List String → String → Except Unit JsVal
  | node, [last], leafValue =>
    match node with
    | .obj fs => .ok (.obj (objSet fs last (.str leafValue)))
    | _ => .error ()
  | node, part :: rest₁ :: rest₂, leafValue =>
    match node with
    | .obj fs =>
      let child := match objLookup fs part with
        | some c => if truthy c then c else JsVal.obj .nil
        | none => JsVal.obj .nil
      match setInTree child (rest₁ :: rest₂) leafValue with
      | .ok c₂ => .ok (.obj (objSet fs part c₂))
      | .error e => .error e
    | _ => .error ()
  | node, [], _ => .ok node

/-- Strict comparison of JavaScript strings (`<` as used by the default
`Array.prototype.sort` comparator): lexicographic on code units.  All keys
produced by the generator are ASCII, where code-unit and code-point order
agree. -/
def strLtb : List Char → List Char → Bool
  | [], [] => false
  | [], _ :: _ => true
  | _ :: _, [] => false
  | a :: as, b :: bs =>
    if a.toNat < b.toNat then true
    else if b.toNat < a.toNat then false
    else strLtb as bs

/-- `a ≤ b` in the sort order of `Array.prototype.sort()`. -/
def keyLe (a b : String) : Bool := !strLtb b.data a.data

/-- Insert a field into a key-sorted field list, keeping the order. -/
def fieldsInsert (key : String) (val : JsVal) : JsFields → JsFields
  | .nil => .cons key val .nil
  | .cons k v rest =>
    if keyLe key k then .cons key val (.cons k v rest)
    else .cons k v (fieldsInsert key val rest)

/-- Rebuild a field list in `Object.keys(obj).sort()` order (insertion
sort; object keys are unique, so stability is irrelevant). -/
def fieldsSortKeys : JsFields → JsFields
  | .nil => .nil
  | .cons k v rest => fieldsInsert k v (fieldsSortKeys rest)

mutual
/-- `sortObjectKeysDeep` (lines 106–115): non-arrays of object type get
their keys sorted at every depth; everything else (strings, arrays — even
arrays containing objects) is returned unchanged.  The source sorts the
keys first and then recurses into each value; key-sorting permutes the
fields without touching the values, so it commutes with the recursion,
which is done first here to keep the definition structurally
recursive. -/
def sortObjectKeysDeep : JsVal → JsVal
  | .str s => .str s
  | .arr xs => .arr xs
  | .obj fs => .obj (fieldsSortKeys (sortFieldsDeep fs))
/-- Recurse `sortObjectKeysDeep` into every field value. -/
def sortFieldsDeep : JsFields → JsFields
  | .nil => .nil
  | .cons k v rest => .cons k (sortObjectKeysDeep v) (sortFieldsDeep rest)
end

/-- The keys of a field list, in order. -/
def keysOf : JsFields → List String
  | .nil => []
  | .cons k _ rest => k :: keysOf rest

mutual
/-- Every object node reachable outside arrays has its keys in
`Array.prototype.sort()` order (adjacent keys related by `keyLe`). -/
inductive SortedDeep : JsVal → Prop
  | str (s : String) : SortedDeep (.str s)
  | arr (xs : JsArr) : SortedDeep (.arr xs)
  | obj {fs : JsFields} :
      List.Chain' (fun a b => keyLe a b = true) (keysOf fs) →
      SortedFields fs → SortedDeep (.obj fs)
/-- All values of a field list are deeply sorted. -/
inductive SortedFields : JsFields → Prop
  | nil : SortedFields .nil
  | cons {k : String} {v : JsVal} {rest : JsFields} :
      SortedDeep v → SortedFields rest → SortedFields (.cons k v rest)
end

/-! ## The generation pipeline (`generateImageIndex`, non-react-native)

Relative paths (the `relFromImages` strings, already slash-normalised by
`path.relative`/`path.posix.normalize` on the walk output) are modelled
pre-split into their `/`-separated segments, as `List String`; segment
strings contain no `/`.  Joining and `path.posix.dirname`/`basename` are
then `dropLast`/`getLast`. -/

/-- `path.basename(rel, path.extname(rel))` (lines 308–311): the
extension-stripped final segment. -/
def baseNoExtOf (rel : List String) : String :=
  let fname := rel.getLastD ""
  basenameSuffix fname (extname fname)

/-- The candidate binding identifier of one asset (lines 322–326):
`toValidIdentifier([...dirParts, baseNoExt].map(toCamel).filter(Boolean).join("_")
|| toCamel(baseNoExt))`, then `|| "img"`. -/
def candidateBase (rel : List String) : String :=
  jsOr
    (toValidIdentifier
      (jsOr
        (String.intercalate "_"
          (((rel.dropLast ++ [baseNoExtOf rel]).map toCamel).filter (fun s => !(s == ""))))
        (toCamel (baseNoExtOf rel))))
    "img"

/-- The key path of one asset in the tree (lines 313–329):
camel-cased directory segments, then `toCamel(baseNoExt) || "image"`. -/
def keysPathOf (rel : List String) : List String :=
  rel.dropLast.map toCamel ++ [jsOr (toCamel (baseNoExtOf rel)) "image"]

/-- The per-file loop body applied to a list of assets (lines 298–332 for
the base root, lines 335–374 for the public root — identical in the
identifier allocation and tree insertion modelled here): allocate the
binding identifier, insert the leaf, record the assignment. -/
def processAssets :
    List (List String) → List String → JsVal → List (List String × String) →
    Except Unit (List String × JsVal × List (List String × String))
  | [], used, tree, asg => .ok (used, tree, asg)
  | rel :: rest, used, tree, asg =>
    let r := ensureUnique (candidateBase rel) used
    match setInTree tree (keysPathOf rel) r.1 with
    | .ok tree₂ => processAssets rest r.2 tree₂ (asg ++ [(rel, r.1)])
    | .error e => .error e

/-- Just the identifier-allocation part of the per-file loop: the
identifiers the loop assigns, in listing order, threading the shared
`usedVarNames` set. -/
def assignIdents : List (List String) → List String → List (List String × String)
  | [], _ => []
  | rel :: rest, used =>
    let r := ensureUnique (candidateBase rel) used
    (rel, r.1) :: assignIdents rest r.2

/-- `new Set(...)` applied to a listing: first occurrences, in order. -/
def jsDedupAux (seen : List (List String)) : List (List String) → List (List String)
  | [] => []
  | a :: l => if a ∈ seen then jsDedupAux seen l else a :: jsDedupAux (a :: seen) l

/-- The deduplicated relative-path listing of one root (lines 256–272). -/
def jsDedup (l : List (List String)) : List (List String) := jsDedupAux [] l

/-- Errors that abort generation before the output file is written. -/
inductive GenErr where
  /-- `Duplicate files found` (lines 278–285). -/
  | duplicates (paths : List (List String))
  /-- A strict-mode `TypeError` raised by `setInTree`. -/
  | treeTypeError

/-- `generateImageIndex` (lines 226–404), from the point where both roots
have been walked (post-rename), for the `nextjs`-style run with a public
root: duplicate detection over the two relative-path sets, then the
base-root and public-root processing loops sharing one `usedVarNames` set
and one tree, then the deep key sort.  An `.ok` result is what gets
written to the output file (line 404); an `.error` aborts before the
write.  The emitted import/descriptor text is abstracted to the
(asset, identifier) assignment list. -/
def generateImageIndexModel (baseFiles publicFiles : List (List String)) :
    Except GenErr (JsVal × List (List String × String)) :=
  let baseFileNames := jsDedup baseFiles
  let publicFileNames := jsDedup publicFiles
  let duplicates := baseFileNames.filter (fun n => publicFileNames.contains n)
  if duplicates ≠ [] then .error (.duplicates duplicates)
  else
    match processAssets baseFiles [] (.obj .nil) [] with
    | .error _ => .error .treeTypeError
    | .ok (used, tree, asg) =>
      match processAssets publicFiles used tree asg with
      | .error _ => .error .treeTypeError
      | .ok (_, tree₂, asg₂) => .ok (sortObjectKeysDeep tree₂, asg₂)

/-- The spec's `RelativeKeyPath` of an asset: the root-relative path with
the extension stripped from the final segment.  (Stated from the spec's
words, for comparison with what the code actually compares; the code's
duplicate detection uses the extension-*preserving* relative path.) -/
def relKeyPath (rel : List String) : List String :=
  rel.dropLast ++ [baseNoExtOf rel]

/-- Does a generation run abort with the duplicate-overlap error? -/
def isDupError {α : Type} : Except GenErr α → Bool
  | .error (.duplicates _) => true
  | _ => false

/-! ## Auxiliary definitions for the proofs -/

/-- No two adjacent occurrences of `sep`. -/
def NoSepRun (sep : Char) (l : List Char) : Prop :=
  List.Chain' (fun a b => ¬(a = sep ∧ b = sep)) l

/-- The base-name transformation of each convention. -/
def convertBase : NameCase → String → String
  | .kebab, s => toKebabCase s
  | .snake, s => toSnakeCase s
  | .any, s => s


/-- The numeric value of a decimal digit character. -/
def dval (c : Char) : Nat := c.toNat - 48

/-- Big-endian value of a digit string. -/
def bigVal : List Char → Nat
  | [] => 0
  | c :: cs => dval c * 10 ^ cs.length + bigVal cs

end DevKit

namespace DevKit

/-! ## Claim C5: allocator uniqueness

Supporting development: injectivity of the decimal rendering of the
integer suffixes, a pigeonhole argument showing the bounded search of
`firstFreeAux` never exhausts its fuel, and the loop invariant of the
allocation sequence. -/

theorem dval_digitChar {n : Nat} (h : n < 10) : dval (Nat.digitChar n) = n := by
  interval_cases n <;> decide

theorem toDigitsCore_bigVal :
    ∀ (fuel n : Nat) (ds : List Char), n < fuel →
      bigVal (Nat.toDigitsCore 10 fuel n ds) = n * 10 ^ ds.length + bigVal ds := by
  intro fuel
  induction fuel with
  | zero => intro n ds h; omega
  | succ fuel ih =>
    intro n ds h
    rw [Nat.toDigitsCore]
    by_cases h10 : n / 10 = 0
    · simp only [h10, if_pos rfl]
      show dval (Nat.digitChar (n % 10)) * 10 ^ ds.length + bigVal ds = _
      rw [dval_digitChar (Nat.mod_lt _ (by omega))]
      have hn : n % 10 = n := by omega
      rw [hn]
    · simp only [if_neg h10]
      have hlt : n / 10 < fuel := by
        have h1 : n / 10 < n := Nat.div_lt_self (by omega) (by omega)
        omega
      rw [ih (n / 10) (Nat.digitChar (n % 10) :: ds) hlt]
      show (n / 10) * 10 ^ (ds.length + 1) +
          (dval (Nat.digitChar (n % 10)) * 10 ^ ds.length + bigVal ds) = _
      rw [dval_digitChar (Nat.mod_lt _ (by omega))]
      conv_rhs => rw [← Nat.div_add_mod n 10]
      ring

theorem Nat_repr_injective : Function.Injective Nat.repr := by
  intro m n h
  have hd : Nat.toDigits 10 m = Nat.toDigits 10 n := congrArg String.data h
  have hm := toDigitsCore_bigVal (m + 1) m [] (by omega)
  have hn := toDigitsCore_bigVal (n + 1) n [] (by omega)
  unfold Nat.toDigits at hd
  rw [hd] at hm
  simp [bigVal] at hm hn
  omega

theorem String_append_left_cancel {s x y : String} (h : s ++ x = s ++ y) : x = y := by
  apply String.ext
  have hd := congrArg String.data h
  rw [String.data_append, String.data_append] at hd
  exact List.append_cancel_left hd

/-- Among `used.length + 1` consecutive suffix candidates at least one is
free: the candidates are pairwise distinct while `used` has only
`used.length` members. -/
theorem exists_free_suffix (name : String) (used : List String) (i : Nat) :
    ∃ m, m < used.length + 1 ∧ name ++ Nat.repr (i + m) ∉ used := by
  by_contra hall
  push_neg at hall
  have hmem : ∀ m < used.length + 1, name ++ Nat.repr (i + m) ∈ used := by
    intro m hm
    by_contra hx
    exact hx (hall m hm)
  have hinj : Function.Injective (fun m : Nat => name ++ Nat.repr (i + m)) := by
    intro a b hab
    have h1 : Nat.repr (i + a) = Nat.repr (i + b) := String_append_left_cancel hab
    have := Nat_repr_injective h1
    omega
  set L := (List.range (used.length + 1)).map (fun m => name ++ Nat.repr (i + m)) with hL
  have hnd : L.Nodup := (List.nodup_range _).map hinj
  have hsub : L.toFinset ⊆ used.toFinset := by
    intro x hx
    rw [List.mem_toFinset] at hx ⊢
    rw [hL, List.mem_map] at hx
    obtain ⟨m, hm, rfl⟩ := hx
    exact hmem m (List.mem_range.mp hm)
  have hc1 : L.toFinset.card = used.length + 1 := by
    rw [List.toFinset_card_of_nodup hnd, hL, List.length_map, List.length_range]
  have hc2 := Finset.card_le_card hsub
  have hc3 := List.toFinset_card_le used
  omega

theorem firstFreeAux_spec (name : String) (used : List String) :
    ∀ (fuel i : Nat), (∃ m, m < fuel ∧ name ++ Nat.repr (i + m) ∉ used) →
      i ≤ firstFreeAux name used fuel i ∧
      name ++ Nat.repr (firstFreeAux name used fuel i) ∉ used ∧
      ∀ j, i ≤ j → j < firstFreeAux name used fuel i → name ++ Nat.repr j ∈ used := by
  intro fuel
  induction fuel with
  | zero => intro i ⟨m, hm, _⟩; omega
  | succ fuel ih =>
    intro i ⟨m, hm, hfree⟩
    rw [firstFreeAux]
    by_cases hi : name ++ Nat.repr i ∈ used
    · rw [if_pos hi]
      have hm0 : m ≠ 0 := by rintro rfl; simp at hfree; exact hfree hi
      have hex : ∃ m', m' < fuel ∧ name ++ Nat.repr (i + 1 + m') ∉ used :=
        ⟨m - 1, by omega, by
          have h := hfree
          rwa [show i + m = i + 1 + (m - 1) from by omega] at h⟩
      obtain ⟨h1, h2, h3⟩ := ih (i + 1) hex
      refine ⟨by omega, h2, ?_⟩
      intro j hij hjlt
      rcases Nat.eq_or_lt_of_le hij with rfl | hij'
      · exact hi
      · exact h3 j (by omega) hjlt
    · rw [if_neg hi]
      exact ⟨le_refl i, hi, fun j hij hji => by omega⟩

/-- One `ensureUnique` call returns a name outside `used` and appends it. -/
theorem ensureUnique_fresh (name : String) (used : List String) :
    (ensureUnique name used).1 ∉ used ∧
    (ensureUnique name used).2 = used ++ [(ensureUnique name used).1] := by
  unfold ensureUnique
  by_cases h : name ∈ used
  · simp only [if_pos h]
    have hspec := firstFreeAux_spec name used (used.length + 1) 2
      (exists_free_suffix name used 2)
    refine ⟨hspec.2.1, ?_⟩
    simp [addSet, hspec.2.1]
  · simp only [if_neg h]
    exact ⟨h, by simp [addSet, h]⟩

/-- On a collision, the returned name is the base with the least free
integer suffix `≥ 2` appended. -/
theorem ensureUnique_of_mem {name : String} {used : List String} (h : name ∈ used) :
    ∃ k, 2 ≤ k ∧ (ensureUnique name used).1 = name ++ Nat.repr k ∧
      name ++ Nat.repr k ∉ used ∧
      ∀ j, 2 ≤ j → j < k → name ++ Nat.repr j ∈ used := by
  have hspec := firstFreeAux_spec name used (used.length + 1) 2
    (exists_free_suffix name used 2)
  refine ⟨firstFreeAux name used (used.length + 1) 2, hspec.1, ?_, hspec.2.1, hspec.2.2⟩
  unfold ensureUnique
  rw [if_pos h]

/-- Nothing already in `used` is ever allocated again. -/
theorem allocSeq_not_mem (names : List String) :
    ∀ (used : List String) (x : String), x ∈ used → x ∉ allocSeq names used := by
  induction names with
  | nil => intro used x _ hx; simp [allocSeq] at hx
  | cons n ns ih =>
    intro used x hx
    rw [allocSeq]
    simp only [List.mem_cons, not_or]
    constructor
    · intro heq
      exact (ensureUnique_fresh n used).1 (heq ▸ hx)
    · apply ih
      rw [(ensureUnique_fresh n used).2]
      exact List.mem_append_left _ hx

/-- The allocated identifiers of a run are pairwise distinct. -/
theorem allocSeq_pairwise (names : List String) (used : List String) :
    (allocSeq names used).Pairwise (· ≠ ·) := by
  induction names generalizing used with
  | nil => simp [allocSeq]
  | cons n ns ih =>
    rw [allocSeq]
    refine List.Pairwise.cons ?_ (ih _)
    intro b hb heq
    have hmem : (ensureUnique n used).1 ∈ (ensureUnique n used).2 := by
      rw [(ensureUnique_fresh n used).2]
      exact List.mem_append_right _ (by simp)
    exact allocSeq_not_mem ns (ensureUnique n used).2 _ hmem (heq ▸ hb)

/-- **C5.**  The allocator invariants: within one run the returned
identifiers are pairwise distinct; each returned name is fresh and is
added to the shared set; a non-colliding base is returned unchanged; a
colliding base gets the least free integer suffix, counted up from 2. -/
theorem ensureUnique_claim :
    (∀ (names used : List String), (allocSeq names used).Pairwise (· ≠ ·)) ∧
    (∀ (name : String) (used : List String),
      (ensureUnique name used).1 ∉ used ∧
      (ensureUnique name used).2 = used ++ [(ensureUnique name used).1] ∧
      (name ∉ used → (ensureUnique name used).1 = name) ∧
      (name ∈ used → ∃ k, 2 ≤ k ∧ (ensureUnique name used).1 = name ++ Nat.repr k ∧
        name ++ Nat.repr k ∉ used ∧
        ∀ j, 2 ≤ j → j < k → name ++ Nat.repr j ∈ used)) := by
  refine ⟨allocSeq_pairwise, fun name used => ?_⟩
  refine ⟨(ensureUnique_fresh name used).1, (ensureUnique_fresh name used).2, ?_, ?_⟩
  · intro h
    unfold ensureUnique
    rw [if_neg h]
  · exact ensureUnique_of_mem

/-- Witness for C5 at a concrete collision: allocating `"a"` against
`{"a"}` yields `"a2"`, which is fresh, and a full run stays duplicate
free. -/
theorem ensureUnique_claim_witness :
    (ensureUnique "a" ["a"]).1 ∉ ["a"] ∧
    (∃ k, 2 ≤ k ∧ (ensureUnique "a" ["a"]).1 = "a" ++ Nat.repr k ∧
      "a" ++ Nat.repr k ∉ ["a"] ∧
      ∀ j, 2 ≤ j → j < k → "a" ++ Nat.repr j ∈ ["a"]) ∧
    (allocSeq ["a", "a"] []).Pairwise (· ≠ ·) :=
  ⟨(ensureUnique_claim.2 "a" ["a"]).1,
   (ensureUnique_claim.2 "a" ["a"]).2.2.2 (by decide),
   ensureUnique_claim.1 ["a", "a"] []⟩

/-! ## Claim C10: empty camel-case keys and the identifier fallback

Validity of the generated binding identifiers: `toValidIdentifier`
always yields a valid (hence nonempty) identifier, decimal suffixes
preserve validity, and a base name without ASCII alphanumerics gets the
literal leaf key `"image"`. -/

theorem identChar_of_clean (s : List Char) :
    ∀ c ∈ s.map (fun c => if isIdentChar c then c else '_'), isIdentChar c = true := by
  intro c hc
  rw [List.mem_map] at hc
  obtain ⟨a, _, rfl⟩ := hc
  by_cases h : isIdentChar a = true
  · simp [h]
  · rw [if_neg (by simp [h])]
    decide

theorem toValidIdentifier_valid (s : String) :
    isValidIdent (toValidIdentifier s) = true := by
  unfold toValidIdentifier
  have hall := identChar_of_clean s.data
  by_cases h : startsIdent (s.data.map (fun c => if isIdentChar c then c else '_')) = true
  · rw [if_pos h]
    unfold isValidIdent
    rw [h, List.all_eq_true.mpr hall]
    rfl
  · rw [if_neg h]
    unfold isValidIdent
    have h1 : startsIdent ('_' :: s.data.map (fun c => if isIdentChar c then c else '_')) = true := rfl
    rw [h1]
    rw [List.all_eq_true.mpr ?_]
    · rfl
    · intro c hc
      rcases List.mem_cons.mp hc with rfl | hc'
      · decide
      · exact hall c hc'

theorem digit_digitChar {m : Nat} (h : m < 10) : isAsciiDigit (Nat.digitChar m) = true := by
  interval_cases m <;> decide

theorem toDigitsCore_all_digits :
    ∀ (fuel n : Nat) (ds : List Char), (∀ c ∈ ds, isAsciiDigit c = true) →
      ∀ c ∈ Nat.toDigitsCore 10 fuel n ds, isAsciiDigit c = true := by
  intro fuel
  induction fuel with
  | zero => intro n ds h; rw [Nat.toDigitsCore]; exact h
  | succ fuel ih =>
    intro n ds h
    rw [Nat.toDigitsCore]
    by_cases h10 : n / 10 = 0
    · rw [if_pos h10]
      intro c hc
      rcases List.mem_cons.mp hc with rfl | hc'
      · exact digit_digitChar (Nat.mod_lt _ (by omega))
      · exact h c hc'
    · rw [if_neg h10]
      apply ih
      intro c hc
      rcases List.mem_cons.mp hc with rfl | hc'
      · exact digit_digitChar (Nat.mod_lt _ (by omega))
      · exact h c hc'

theorem repr_all_digits (n : Nat) : ∀ c ∈ (Nat.repr n).data, isAsciiDigit c = true := by
  intro c hc
  exact toDigitsCore_all_digits (n + 1) n [] (by simp) c hc

theorem isValidIdent_append_repr {s : String} (h : isValidIdent s = true) (k : Nat) :
    isValidIdent (s ++ Nat.repr k) = true := by
  unfold isValidIdent at h ⊢
  rw [Bool.and_eq_true] at h
  rw [String.data_append]
  rw [Bool.and_eq_true]
  constructor
  · cases hd : s.data with
    | nil => rw [hd] at h; simp [startsIdent] at h
    | cons c r =>
      rw [hd] at h
      simpa [startsIdent] using h.1
  · rw [List.all_eq_true]
    intro c hc
    rcases List.mem_append.mp hc with hc' | hc'
    · exact List.all_eq_true.mp h.2 c hc'
    · have hd := repr_all_digits k c hc'
      unfold isIdentChar isAsciiAlpha
      rw [hd]
      simp

/-- The allocated identifier is the candidate base, possibly with a
decimal suffix. -/
theorem ensureUnique_shape (name : String) (used : List String) :
    (ensureUnique name used).1 = name ∨
    ∃ k, (ensureUnique name used).1 = name ++ Nat.repr k := by
  unfold ensureUnique
  by_cases h : name ∈ used
  · rw [if_pos h]
    exact Or.inr ⟨_, rfl⟩
  · rw [if_neg h]
    exact Or.inl rfl

theorem isValidIdent_jsOr (a b : String) (hb : isValidIdent b = true)
    (ha : a ≠ "" → isValidIdent a = true) : isValidIdent (jsOr a b) = true := by
  unfold jsOr
  by_cases h : a = ""
  · rw [if_pos h]; exact hb
  · rw [if_neg h]; exact ha h

theorem candidateBase_valid (rel : List String) :
    isValidIdent (candidateBase rel) = true := by
  unfold candidateBase
  exact isValidIdent_jsOr _ _ (by decide) (fun _ => toValidIdentifier_valid _)

/-- **C10.**  When the extension-stripped base name camel-cases to the
empty string, the manifest leaf key is the literal `"image"`, and the
binding identifier allocated for the asset is still a nonempty valid
identifier (the `toValidIdentifier` / `"img"` fallback chain never
produces an empty name, and integer suffixes preserve validity). -/
theorem emptyCamel_leaf_image_and_valid_ident (rel : List String) (used : List String)
    (h : toCamel (baseNoExtOf rel) = "") :
    (keysPathOf rel).getLast? = some "image" ∧
    isValidIdent ((ensureUnique (candidateBase rel) used).1) = true := by
  constructor
  · unfold keysPathOf
    rw [List.getLast?_concat]
    rw [h]
    rfl
  · rcases ensureUnique_shape (candidateBase rel) used with hs | ⟨k, hs⟩
    · rw [hs]; exact candidateBase_valid rel
    · rw [hs]; exact isValidIdent_append_repr (candidateBase_valid rel) k

/-- Witness for C10 at `rel = ["!.png"]` (base name `"!"`, no ASCII
alphanumerics) with a nonempty `used` set forcing a suffix. -/
theorem emptyCamel_leaf_image_and_valid_ident_witness :
    (keysPathOf [("!.png" : String)]).getLast? = some "image" ∧
    isValidIdent ((ensureUnique (candidateBase [("!.png" : String)]) ["_"]).1) = true :=
  emptyCamel_leaf_image_and_valid_ident ["!.png"] ["_"] (by decide)

/-! ## Claim C6 (amended): allocation in listing order -/

/-- An allocator call with an unused base returns the base unchanged. -/
theorem ensureUnique_not_mem {name : String} {used : List String} (h : name ∉ used) :
    ensureUnique name used = (name, used ++ [name]) := by
  unfold ensureUnique
  rw [if_neg h]
  unfold addSet
  rw [if_neg h]

/-- With pairwise distinct candidate bases, none of which is already
used, every asset is assigned exactly its base. -/
theorem assignIdents_of_nodup (files : List (List String)) :
    ∀ used : List String,
      (files.map candidateBase).Nodup →
      (∀ b ∈ files.map candidateBase, b ∉ used) →
      assignIdents files used = files.map (fun rel => (rel, candidateBase rel)) := by
  induction files with
  | nil => intro used _ _; rfl
  | cons rel rest ih =>
    intro used hnd hused
    rw [List.map_cons] at hnd hused
    have hbase : candidateBase rel ∉ used := hused _ (List.mem_cons_self _ _)
    rw [assignIdents]
    rw [ensureUnique_not_mem hbase]
    rw [List.map_cons]
    congr 1
    apply ih
    · exact hnd.of_cons
    · intro b hb
      rw [List.mem_append]
      push_neg
      refine ⟨hused b (List.mem_cons_of_mem _ hb), ?_⟩
      intro hbeq
      rw [List.mem_singleton] at hbeq
      rw [List.nodup_cons] at hnd
      exact hnd.1 (hbeq ▸ hb)

/-- **C6, amended.**  Binding identifiers are allocated in the order the
walk lists the files; the allocation is a deterministic function of the
listed sequence, and whenever the files' candidate identifier bases are
pairwise distinct each file receives exactly its base — so in that case
the identifier of an asset does not depend on the listing order at all. -/
theorem assignIdents_nodup_claim (files : List (List String))
    (h : (files.map candidateBase).Nodup) :
    assignIdents files [] = files.map (fun rel => (rel, candidateBase rel)) :=
  assignIdents_of_nodup files [] h (by simp)

/-- Witness for the amended C6 on a two-file set with distinct bases, in
both listing orders. -/
theorem assignIdents_nodup_claim_witness :
    assignIdents [["a.png"], ["b.png"]] [] =
      [(["a.png"], candidateBase ["a.png"]), (["b.png"], candidateBase ["b.png"])] ∧
    assignIdents [["b.png"], ["a.png"]] [] =
      [(["b.png"], candidateBase ["b.png"]), (["a.png"], candidateBase ["a.png"])] :=
  ⟨assignIdents_nodup_claim [["a.png"], ["b.png"]] (by decide),
   assignIdents_nodup_claim [["b.png"], ["a.png"]] (by decide)⟩

/-! ## Claim C3 (amended): the duplicate gate compares full relative paths -/

theorem mem_jsDedupAux (x : List String) :
    ∀ (l seen : List (List String)), x ∈ jsDedupAux seen l ↔ x ∈ l ∧ x ∉ seen := by
  intro l
  induction l with
  | nil => intro seen; simp [jsDedupAux]
  | cons a l ih =>
    intro seen
    rw [jsDedupAux]
    by_cases h : a ∈ seen
    · rw [if_pos h, ih]
      constructor
      · rintro ⟨h1, h2⟩
        exact ⟨List.mem_cons_of_mem _ h1, h2⟩
      · rintro ⟨h1, h2⟩
        rcases List.mem_cons.mp h1 with rfl | h1'
        · exact absurd h h2
        · exact ⟨h1', h2⟩
    · rw [if_neg h]
      rw [List.mem_cons, ih]
      constructor
      · rintro (rfl | ⟨h1, h2⟩)
        · exact ⟨List.mem_cons_self _ _, h⟩
        · refine ⟨List.mem_cons_of_mem _ h1, fun hx => h2 (List.mem_cons_of_mem _ hx)⟩
      · rintro ⟨h1, h2⟩
        by_cases hxa : x = a
        · exact Or.inl hxa
        · rcases List.mem_cons.mp h1 with rfl | h1'
          · exact absurd rfl hxa
          · refine Or.inr ⟨h1', fun hx => ?_⟩
            rcases List.mem_cons.mp hx with rfl | hx'
            · exact hxa rfl
            · exact h2 hx'

theorem mem_jsDedup {x : List String} {l : List (List String)} :
    x ∈ jsDedup l ↔ x ∈ l := by
  rw [jsDedup, mem_jsDedupAux]
  simp

/-- **C3, amended.**  Generation aborts with the duplicate-overlap error
exactly when some root-relative path — extension *included* — occurs in
both roots' listings; the comparison unit is the extension-preserving
relative path.  (On that error the model returns no output, so nothing is
written.) -/
theorem generateImageIndex_dup_error_iff (baseFiles publicFiles : List (List String)) :
    isDupError (generateImageIndexModel baseFiles publicFiles) = true ↔
      ∃ x, x ∈ baseFiles ∧ x ∈ publicFiles := by
  unfold generateImageIndexModel
  by_cases hdup :
      (jsDedup baseFiles).filter (fun n => (jsDedup publicFiles).contains n) ≠ []
  · rw [if_pos hdup]
    simp only [isDupError, true_iff]
    obtain ⟨x, hx⟩ := List.exists_mem_of_ne_nil _ hdup
    rw [List.mem_filter] at hx
    refine ⟨x, mem_jsDedup.mp hx.1, ?_⟩
    exact mem_jsDedup.mp (List.mem_of_elem_eq_true hx.2)
  · rw [if_neg hdup]
    push_neg at hdup
    constructor
    · intro hfalse
      exfalso
      split at hfalse
      · simp [isDupError] at hfalse
      · split at hfalse
        · simp [isDupError] at hfalse
        · simp [isDupError] at hfalse
    · rintro ⟨x, hxb, hxp⟩
      exfalso
      have hx : x ∈ (jsDedup baseFiles).filter (fun n => (jsDedup publicFiles).contains n) := by
        rw [List.mem_filter]
        exact ⟨mem_jsDedup.mpr hxb, List.elem_eq_true_of_mem (mem_jsDedup.mpr hxp)⟩
      rw [hdup] at hx
      exact List.not_mem_nil _ hx

/-- Witness for the amended C3: a shared full relative path in both roots
does raise the duplicate error. -/
theorem generateImageIndex_dup_error_iff_witness :
    isDupError (generateImageIndexModel [["images", "logo.png"]] [["images", "logo.png"]]) =
      true :=
  (generateImageIndex_dup_error_iff _ _).mpr ⟨["images", "logo.png"], by decide, by decide⟩

/-! ## Claim C7: deep key sorting -/

/-- `strLtb` is asymmetric. -/
theorem strLtb_asymm : ∀ (a b : List Char), strLtb a b = true → strLtb b a = false := by
  intro a
  induction a with
  | nil =>
    intro b h
    cases b with
    | nil => simp [strLtb] at h
    | cons c cs => rfl
  | cons c cs ih =>
    intro b h
    cases b with
    | nil => simp [strLtb] at h
    | cons d ds =>
      rw [strLtb] at h ⊢
      by_cases h1 : c.toNat < d.toNat
      · rw [if_neg (by omega), if_pos h1]
      · rw [if_neg h1] at h
        by_cases h2 : d.toNat < c.toNat
        · rw [if_pos h2] at h
          exact absurd h (by simp)
        · rw [if_neg h2] at h
          rw [if_neg h1, if_neg h2]
          exact ih ds h

/-- `keyLe` is total. -/
theorem keyLe_total (a b : String) : keyLe a b = true ∨ keyLe b a = true := by
  unfold keyLe
  by_cases h : strLtb b.data a.data = true
  · right
    rw [strLtb_asymm _ _ h]
    rfl
  · left
    rw [Bool.not_eq_true] at h
    rw [h]
    rfl

/-- The head key after an insertion is the inserted key or the old head. -/
theorem keys_fieldsInsert_head (key : String) (val : JsVal) :
    ∀ fs, (keysOf (fieldsInsert key val fs)).head? = some key ∨
      (keysOf (fieldsInsert key val fs)).head? = (keysOf fs).head? := by
  intro fs
  cases fs with
  | nil => left; rfl
  | cons k v rest =>
    rw [fieldsInsert]
    by_cases h : keyLe key k = true
    · rw [if_pos h]; left; rfl
    · rw [if_neg h]; right; rfl

/-- Inserting into a key-sorted field list keeps the keys sorted. -/
theorem chain_keys_fieldsInsert (key : String) (val : JsVal) :
    ∀ fs, List.Chain' (fun a b => keyLe a b = true) (keysOf fs) →
      List.Chain' (fun a b => keyLe a b = true) (keysOf (fieldsInsert key val fs))
  | .nil, _ => by simp [fieldsInsert, keysOf]
  | .cons k v rest, hch => by
    rw [fieldsInsert]
    by_cases h : keyLe key k = true
    · rw [if_pos h]
      show List.Chain' _ (key :: k :: keysOf rest)
      rw [List.chain'_cons]
      exact ⟨h, hch⟩
    · rw [if_neg h]
      show List.Chain' _ (k :: keysOf (fieldsInsert key val rest))
      have hps := List.chain'_cons'.mp hch
      rw [List.chain'_cons']
      refine ⟨?_, chain_keys_fieldsInsert key val rest hps.2⟩
      intro y hy
      rcases keys_fieldsInsert_head key val rest with hh | hh
      · rw [hh] at hy
        have hyk : key = y := Option.mem_some_iff.mp hy
        rcases keyLe_total key k with hkk | hkk
        · exact absurd hkk h
        · rw [← hyk]
          exact hkk
      · rw [hh] at hy
        exact hps.1 y hy

/-- After a full key sort the keys are sorted. -/
theorem chain_keys_fieldsSortKeys :
    ∀ fs, List.Chain' (fun a b => keyLe a b = true) (keysOf (fieldsSortKeys fs))
  | .nil => by simp [fieldsSortKeys, keysOf]
  | .cons k v rest => by
    rw [fieldsSortKeys]
    exact chain_keys_fieldsInsert k v _ (chain_keys_fieldsSortKeys rest)

/-- Insertion preserves deep sortedness of the values. -/
theorem sortedFields_fieldsInsert {key : String} {val : JsVal} (hval : SortedDeep val) :
    ∀ {fs}, SortedFields fs → SortedFields (fieldsInsert key val fs)
  | .nil, _ => by
    rw [fieldsInsert]
    exact .cons hval .nil
  | .cons k v rest, .cons hv hrest => by
    rw [fieldsInsert]
    by_cases h : keyLe key k = true
    · rw [if_pos h]
      exact .cons hval (.cons hv hrest)
    · rw [if_neg h]
      exact .cons hv (sortedFields_fieldsInsert hval hrest)

/-- The key sort preserves deep sortedness of the values. -/
theorem sortedFields_fieldsSortKeys :
    ∀ {fs}, SortedFields fs → SortedFields (fieldsSortKeys fs)
  | .nil, _ => .nil
  | .cons _k v rest, .cons hv hrest => by
    rw [fieldsSortKeys]
    exact sortedFields_fieldsInsert hv (sortedFields_fieldsSortKeys hrest)

mutual
/-- `sortObjectKeysDeep` yields a deeply key-sorted tree. -/
theorem sortObjectKeysDeep_sorted : ∀ t, SortedDeep (sortObjectKeysDeep t)
  | .str s => .str s
  | .arr xs => .arr xs
  | .obj fs =>
    .obj (chain_keys_fieldsSortKeys (sortFieldsDeep fs))
      (sortedFields_fieldsSortKeys (sortFieldsDeep_sorted fs))
/-- `sortFieldsDeep` yields deeply key-sorted values. -/
theorem sortFieldsDeep_sorted : ∀ fs, SortedFields (sortFieldsDeep fs)
  | .nil => .nil
  | .cons _k v rest => .cons (sortObjectKeysDeep_sorted v) (sortFieldsDeep_sorted rest)
end

/-- **C7.**  The sorting pass returns every mapping node with its keys in
sorted order at every nesting depth (outside arrays, which it does not
enter), and returns non-object values — string leaves and arrays —
unchanged. -/
theorem sortObjectKeysDeep_claim :
    (∀ t, SortedDeep (sortObjectKeysDeep t)) ∧
    (∀ s, sortObjectKeysDeep (.str s) = .str s) ∧
    (∀ xs, sortObjectKeysDeep (.arr xs) = .arr xs) :=
  ⟨sortObjectKeysDeep_sorted, fun _ => rfl, fun _ => rfl⟩

/-! ## Claim C1 (amended): idempotence of the name normalizer

The pipeline stages are each the identity on the pipeline image
(lower-case `keep` characters, no separator runs, no leading or
trailing separator), and the extension round-trips through
`extname`/`basenameSuffix` whenever the converted base name is
nonempty. -/

/-! Stage identity lemmas: each pipeline stage is the identity on strings
already in the pipeline's image. -/

theorem insDash_eq_self (sep : Char) :
    ∀ l, (∀ c ∈ l, isAsciiUpper c = false) → insDash sep l = l
  | [], _ => rfl
  | [a], _ => rfl
  | a :: b :: rest, h => by
    rw [insDash]
    rw [if_neg (by
      rw [h b (List.mem_cons_of_mem _ (List.mem_cons_self _ _))]
      simp)]
    congr 1
    exact insDash_eq_self sep (b :: rest) (fun c hc => h c (List.mem_cons_of_mem _ hc))

theorem sepRuns_eq_self (sep : Char) (cls : Char → Bool) :
    ∀ l, (∀ c ∈ l, cls c = false) → ∀ b, sepRuns sep cls b l = l
  | [], _, _ => rfl
  | c :: rest, h, b => by
    rw [sepRuns]
    rw [if_neg (by rw [h c (List.mem_cons_self _ _)]; simp)]
    congr 1
    exact sepRuns_eq_self sep cls rest (fun x hx => h x (List.mem_cons_of_mem _ hx)) false

theorem map_toLower_eq_self :
    ∀ l : List Char, (∀ c ∈ l, c.toLower = c) → l.map Char.toLower = l
  | [], _ => rfl
  | c :: rest, h => by
    rw [List.map_cons, h c (List.mem_cons_self _ _),
      map_toLower_eq_self rest (fun x hx => h x (List.mem_cons_of_mem _ hx))]

/-- If the head is not `sep`, the run flag is irrelevant. -/
theorem sepRuns_eqSep_true_eq_false (sep : Char) (l : List Char)
    (h : ∀ y ∈ l.head?, y ≠ sep) :
    sepRuns sep (fun c => c = sep) true l = sepRuns sep (fun c => c = sep) false l := by
  cases l with
  | nil => rfl
  | cons c rest =>
    have hc : c ≠ sep := h c rfl
    rw [sepRuns, sepRuns, if_neg (by simpa using hc), if_neg (by simpa using hc)]

/-- Collapsing is the identity when there are no runs. -/
theorem sepRuns_eqSep_eq_self (sep : Char) :
    ∀ l, NoSepRun sep l → sepRuns sep (fun c => c = sep) false l = l
  | [], _ => rfl
  | c :: rest, h => by
    have hps := List.chain'_cons'.mp h
    rw [sepRuns]
    by_cases hc : c = sep
    · rw [if_pos (by simpa using hc)]
      rw [sepRuns_eqSep_true_eq_false sep rest ?_]
      · rw [sepRuns_eqSep_eq_self sep rest hps.2, hc]
        simp
      · intro y hy heq
        exact hps.1 y hy ⟨hc, heq⟩
    · rw [if_neg (by simpa using hc)]
      rw [sepRuns_eqSep_eq_self sep rest hps.2]

theorem trimSep_eq_self (sep : Char) (l : List Char)
    (hh : ∀ y ∈ l.head?, y ≠ sep) (ht : ∀ y ∈ l.getLast?, y ≠ sep) :
    trimSep sep l = l := by
  unfold trimSep
  have h1 : dropLeadSep sep l = l := by
    cases l with
    | nil => rfl
    | cons c rest =>
      rw [dropLeadSep, if_neg (hh c rfl)]
  rw [h1]
  unfold dropTrailSep
  rw [if_neg ?_]
  intro hlast
  exact ht sep hlast rfl

/-! Output-shape lemmas for the pipeline. -/

theorem mem_sepRuns (sep : Char) (cls : Char → Bool) :
    ∀ (l : List Char) (b : Bool) (c : Char), c ∈ sepRuns sep cls b l → c = sep ∨ c ∈ l
  | [], b, c, h => by simp [sepRuns] at h
  | x :: rest, b, c, h => by
    rw [sepRuns] at h
    by_cases hx : cls x = true
    · rw [if_pos hx] at h
      by_cases hb : b = true
      · rw [if_pos hb] at h
        rcases mem_sepRuns sep cls rest true c h with h' | h'
        · exact Or.inl h'
        · exact Or.inr (List.mem_cons_of_mem _ h')
      · rw [if_neg hb] at h
        rcases List.mem_cons.mp h with rfl | h'
        · exact Or.inl rfl
        · rcases mem_sepRuns sep cls rest true c h' with h'' | h''
          · exact Or.inl h''
          · exact Or.inr (List.mem_cons_of_mem _ h'')
    · rw [if_neg hx] at h
      rcases List.mem_cons.mp h with rfl | h'
      · exact Or.inr (List.mem_cons_self _ _)
      · rcases mem_sepRuns sep cls rest false c h' with h'' | h''
        · exact Or.inl h''
        · exact Or.inr (List.mem_cons_of_mem _ h'')

theorem mem_trimSep (sep : Char) (l : List Char) (c : Char)
    (h : c ∈ trimSep sep l) : c ∈ l := by
  unfold trimSep dropTrailSep at h
  have h1 : c ∈ dropLeadSep sep l := by
    by_cases hl : (dropLeadSep sep l).getLast? = some sep
    · rw [if_pos hl] at h
      exact (List.dropLast_sublist _).mem h
    · rwa [if_neg hl] at h
  cases l with
  | nil => exact h1
  | cons x rest =>
    rw [dropLeadSep] at h1
    by_cases hx : x = sep
    · rw [if_pos hx] at h1
      exact List.mem_cons_of_mem _ h1
    · rwa [if_neg hx] at h1

/-- The collapsed list never starts with `sep` when the scanner is inside
a run. -/
theorem sepRuns_eqSep_true_head (sep : Char) :
    ∀ l : List Char, ∀ y ∈ (sepRuns sep (fun c => c = sep) true l).head?, y ≠ sep
  | [], y, hy => by simp [sepRuns] at hy
  | c :: rest, y, hy => by
    rw [sepRuns] at hy
    by_cases hc : c = sep
    · rw [if_pos (by simpa using hc)] at hy
      exact sepRuns_eqSep_true_head sep rest y hy
    · rw [if_neg (by simpa using hc)] at hy
      have : c = y := Option.mem_some_iff.mp hy
      rw [← this]
      exact hc

/-- The collapsed list has no adjacent separators. -/
theorem noSepRun_sepRuns (sep : Char) :
    ∀ (l : List Char) (b : Bool), NoSepRun sep (sepRuns sep (fun c => c = sep) b l)
  | [], b => List.chain'_nil
  | c :: rest, b => by
    rw [sepRuns]
    by_cases hc : c = sep
    · rw [if_pos (by simpa using hc)]
      by_cases hb : b = true
      · rw [if_pos hb]
        exact noSepRun_sepRuns sep rest true
      · rw [if_neg hb]
        rw [NoSepRun, List.chain'_cons']
        refine ⟨?_, noSepRun_sepRuns sep rest true⟩
        intro y hy hcontra
        exact sepRuns_eqSep_true_head sep rest y hy hcontra.2
    · rw [if_neg (by simpa using hc)]
      rw [NoSepRun, List.chain'_cons']
      refine ⟨?_, noSepRun_sepRuns sep rest false⟩
      intro y hy hcontra
      exact hc hcontra.1

theorem noSepRun_tail {sep x : Char} {l : List Char} (h : NoSepRun sep (x :: l)) :
    NoSepRun sep l :=
  (List.chain'_cons'.mp h).2

theorem headOk_dropLeadSep (sep : Char) (l : List Char) (h : NoSepRun sep l) :
    ∀ y ∈ (dropLeadSep sep l).head?, y ≠ sep := by
  cases l with
  | nil => intro y hy; simp [dropLeadSep] at hy
  | cons x rest =>
    rw [dropLeadSep]
    by_cases hx : x = sep
    · rw [if_pos hx]
      intro y hy hcontra
      cases rest with
      | nil => simp at hy
      | cons z zs =>
        have hz : z = y := Option.mem_some_iff.mp hy
        exact (List.chain'_cons.mp h).1 ⟨hx, by rw [hz]; exact hcontra⟩
    · rw [if_neg hx]
      intro y hy
      have : x = y := Option.mem_some_iff.mp hy
      rw [← this]
      exact hx

theorem noSepRun_dropLeadSep (sep : Char) (l : List Char) (h : NoSepRun sep l) :
    NoSepRun sep (dropLeadSep sep l) := by
  cases l with
  | nil => exact h
  | cons x rest =>
    rw [dropLeadSep]
    by_cases hx : x = sep
    · rw [if_pos hx]
      exact noSepRun_tail h
    · rwa [if_neg hx]

theorem headOk_dropTrailSep (sep : Char) (l : List Char)
    (h : ∀ y ∈ l.head?, y ≠ sep) : ∀ y ∈ (dropTrailSep sep l).head?, y ≠ sep := by
  unfold dropTrailSep
  by_cases hl : l.getLast? = some sep
  · rw [if_pos hl]
    intro y hy
    apply h
    cases l with
    | nil => simp at hy
    | cons x rest =>
      cases rest with
      | nil => simp at hy
      | cons z zs =>
        have : (x :: z :: zs).dropLast = x :: (z :: zs).dropLast := rfl
        rw [this] at hy
        have hx : x = y := Option.mem_some_iff.mp hy
        rw [← hx]
        rfl
  · rwa [if_neg hl]

/-- Dropping a trailing separator from a run-free list leaves no trailing
separator. -/
theorem lastOk_dropLast (sep : Char) :
    ∀ l : List Char, NoSepRun sep l → l.getLast? = some sep →
      ∀ y ∈ l.dropLast.getLast?, y ≠ sep
  | [], _, hlast, y, hy => by simp at hlast
  | [a], _, hlast, y, hy => by simp at hy
  | a :: b :: rest, h, hlast, y, hy => by
    rw [List.getLast?_cons_cons] at hlast
    have hd : (a :: b :: rest).dropLast = a :: (b :: rest).dropLast := rfl
    rw [hd] at hy
    cases hrest : (b :: rest).dropLast with
    | nil =>
      rw [hrest] at hy
      have hb : rest = [] := by
        cases rest with
        | nil => rfl
        | cons z zs => simp [List.dropLast] at hrest
      subst hb
      have hbsep : b = sep := by
        rw [show ([b] : List Char).getLast? = some b from rfl] at hlast
        exact (Option.some_inj.mp hlast)
      have hay : a = y := Option.mem_some_iff.mp hy
      intro hcontra
      exact (List.chain'_cons.mp h).1 ⟨by rw [hay]; exact hcontra, hbsep⟩
    | cons z zs =>
      rw [hrest] at hy
      rw [List.getLast?_cons_cons] at hy
      rw [← hrest] at hy
      exact lastOk_dropLast sep (b :: rest) (noSepRun_tail h) hlast y hy

theorem lastOk_dropTrailSep (sep : Char) (l : List Char) (h : NoSepRun sep l) :
    ∀ y ∈ (dropTrailSep sep l).getLast?, y ≠ sep := by
  unfold dropTrailSep
  by_cases hl : l.getLast? = some sep
  · rw [if_pos hl]
    exact lastOk_dropLast sep l h hl
  · rw [if_neg hl]
    intro y hy hcontra
    rw [hcontra] at hy
    exact hl hy

theorem noSepRun_dropTrailSep (sep : Char) (l : List Char) (h : NoSepRun sep l) :
    NoSepRun sep (dropTrailSep sep l) := by
  unfold dropTrailSep
  by_cases hl : l.getLast? = some sep
  · rw [if_pos hl]
    exact List.Chain'.prefix h (List.dropLast_prefix l)
  · rwa [if_neg hl]

theorem caseConvert_all_keep (sep : Char) (cls keep : Char → Bool)
    (hKeepSep : keep sep = true) (l : List Char) :
    ∀ c ∈ caseConvert sep cls keep l, keep c = true := by
  intro c hc
  unfold caseConvert at hc
  have h1 := mem_trimSep _ _ _ hc
  rcases mem_sepRuns _ _ _ _ _ h1 with rfl | h2
  · exact hKeepSep
  · exact List.of_mem_filter h2

theorem caseConvert_noSepRun (sep : Char) (cls keep : Char → Bool) (l : List Char) :
    NoSepRun sep (caseConvert sep cls keep l) := by
  unfold caseConvert trimSep
  exact noSepRun_dropTrailSep _ _ (noSepRun_dropLeadSep _ _ (noSepRun_sepRuns _ _ _))

theorem caseConvert_headOk (sep : Char) (cls keep : Char → Bool) (l : List Char) :
    ∀ y ∈ (caseConvert sep cls keep l).head?, y ≠ sep := by
  unfold caseConvert trimSep
  exact headOk_dropTrailSep _ _ (headOk_dropLeadSep _ _ (noSepRun_sepRuns _ _ _))

theorem caseConvert_lastOk (sep : Char) (cls keep : Char → Bool) (l : List Char) :
    ∀ y ∈ (caseConvert sep cls keep l).getLast?, y ≠ sep := by
  unfold caseConvert trimSep
  exact lastOk_dropTrailSep _ _ (noSepRun_dropLeadSep _ _ (noSepRun_sepRuns _ _ _))

/-- The five-stage pipeline is the identity on its own image, hence
idempotent; the hypotheses relate the keep class to the other stages and
hold for both the kebab and the snake instantiation. -/
theorem caseConvert_idem (sep : Char) (cls keep : Char → Bool)
    (hKeepSep : keep sep = true)
    (hNoUpper : ∀ c, keep c = true → isAsciiUpper c = false)
    (hLower : ∀ c, keep c = true → c.toLower = c)
    (hNoCls : ∀ c, keep c = true → cls c = false) (l : List Char) :
    caseConvert sep cls keep (caseConvert sep cls keep l) = caseConvert sep cls keep l := by
  set out := caseConvert sep cls keep l with hout
  have hkeep := caseConvert_all_keep sep cls keep hKeepSep l
  rw [← hout] at hkeep
  conv_lhs => rw [caseConvert]
  rw [insDash_eq_self sep out (fun c hc => hNoUpper c (hkeep c hc))]
  rw [sepRuns_eq_self sep cls out (fun c hc => hNoCls c (hkeep c hc)) false]
  rw [map_toLower_eq_self out (fun c hc => hLower c (hkeep c hc))]
  rw [List.filter_eq_self.mpr hkeep]
  rw [sepRuns_eqSep_eq_self sep out (by rw [hout]; exact caseConvert_noSepRun sep cls keep l)]
  rw [trimSep_eq_self sep out
    (by rw [hout]; exact caseConvert_headOk sep cls keep l)
    (by rw [hout]; exact caseConvert_lastOk sep cls keep l)]

/-- Character equality is code-point equality. -/
theorem char_eq_iff_toNat {c d : Char} : c = d ↔ c.toNat = d.toNat := by
  constructor
  · rintro rfl; rfl
  · intro h
    exact Char.ext (UInt32.ext h)

/-- Numeric characterisation of the kebab keep class. -/
theorem isKebabKeep_range {c : Char} (h : isKebabKeep c = true) :
    97 ≤ c.toNat ∧ c.toNat ≤ 122 ∨ 48 ≤ c.toNat ∧ c.toNat ≤ 57 ∨ c.toNat = 45 := by
  simp only [isKebabKeep, isAsciiLower, isAsciiDigit, Bool.or_eq_true, Bool.and_eq_true,
    decide_eq_true_eq, char_eq_iff_toNat] at h
  have h45 : ('-' : Char).toNat = 45 := rfl
  rw [h45] at h
  tauto

/-- Numeric characterisation of the snake keep class. -/
theorem isSnakeKeep_range {c : Char} (h : isSnakeKeep c = true) :
    97 ≤ c.toNat ∧ c.toNat ≤ 122 ∨ 48 ≤ c.toNat ∧ c.toNat ≤ 57 ∨ c.toNat = 95 := by
  simp only [isSnakeKeep, isAsciiLower, isAsciiDigit, Bool.or_eq_true, Bool.and_eq_true,
    decide_eq_true_eq, char_eq_iff_toNat] at h
  have h95 : ('_' : Char).toNat = 95 := rfl
  rw [h95] at h
  tauto

theorem isAsciiUpper_eq_false_of_range {c : Char}
    (h : 97 ≤ c.toNat ∧ c.toNat ≤ 122 ∨ 48 ≤ c.toNat ∧ c.toNat ≤ 57 ∨
      c.toNat = 45 ∨ c.toNat = 95) : isAsciiUpper c = false := by
  rw [Bool.eq_false_iff]
  intro hcontra
  simp only [isAsciiUpper, Bool.and_eq_true, decide_eq_true_eq] at hcontra
  omega

theorem toLower_eq_self_of_range {c : Char}
    (h : 97 ≤ c.toNat ∧ c.toNat ≤ 122 ∨ 48 ≤ c.toNat ∧ c.toNat ≤ 57 ∨
      c.toNat = 45 ∨ c.toNat = 95) : c.toLower = c := by
  unfold Char.toLower
  rw [if_neg (by omega)]

theorem isSepKebab_eq_false_of_range {c : Char}
    (h : 97 ≤ c.toNat ∧ c.toNat ≤ 122 ∨ 48 ≤ c.toNat ∧ c.toNat ≤ 57 ∨ c.toNat = 45) :
    isSepKebab c = false := by
  rw [Bool.eq_false_iff]
  intro hcontra
  simp only [isSepKebab, isJsWhitespace, Bool.or_eq_true, Bool.and_eq_true,
    decide_eq_true_eq, char_eq_iff_toNat] at hcontra
  have h95 : ('_' : Char).toNat = 95 := rfl
  have h46 : ('.' : Char).toNat = 46 := rfl
  rw [h95, h46] at hcontra
  omega

theorem isSepSnake_eq_false_of_range {c : Char}
    (h : 97 ≤ c.toNat ∧ c.toNat ≤ 122 ∨ 48 ≤ c.toNat ∧ c.toNat ≤ 57 ∨ c.toNat = 95) :
    isSepSnake c = false := by
  rw [Bool.eq_false_iff]
  intro hcontra
  simp only [isSepSnake, isJsWhitespace, Bool.or_eq_true, Bool.and_eq_true,
    decide_eq_true_eq, char_eq_iff_toNat] at hcontra
  have h45 : ('-' : Char).toNat = 45 := rfl
  have h46 : ('.' : Char).toNat = 46 := rfl
  rw [h45, h46] at hcontra
  omega

theorem ne_dot_of_range {c : Char}
    (h : 97 ≤ c.toNat ∧ c.toNat ≤ 122 ∨ 48 ≤ c.toNat ∧ c.toNat ≤ 57 ∨
      c.toNat = 45 ∨ c.toNat = 95) : c ≠ '.' := by
  simp only [ne_eq, char_eq_iff_toNat]
  have h46 : ('.' : Char).toNat = 46 := rfl
  rw [h46]
  omega

theorem ne_slash_of_range {c : Char}
    (h : 97 ≤ c.toNat ∧ c.toNat ≤ 122 ∨ 48 ≤ c.toNat ∧ c.toNat ≤ 57 ∨
      c.toNat = 45 ∨ c.toNat = 95) : c ≠ '/' := by
  simp only [ne_eq, char_eq_iff_toNat]
  have h47 : ('/' : Char).toNat = 47 := rfl
  rw [h47]
  omega

/-- `toKebabCase` is idempotent (as a list transformation). -/
theorem kebab_idem (l : List Char) :
    caseConvert '-' isSepKebab isKebabKeep (caseConvert '-' isSepKebab isKebabKeep l) =
      caseConvert '-' isSepKebab isKebabKeep l :=
  caseConvert_idem '-' isSepKebab isKebabKeep rfl
    (fun c hc => isAsciiUpper_eq_false_of_range (by have := isKebabKeep_range hc; tauto))
    (fun c hc => toLower_eq_self_of_range (by have := isKebabKeep_range hc; tauto))
    (fun c hc => isSepKebab_eq_false_of_range (isKebabKeep_range hc)) l

/-- `toSnakeCase` is idempotent (as a list transformation). -/
theorem snake_idem (l : List Char) :
    caseConvert '_' isSepSnake isSnakeKeep (caseConvert '_' isSepSnake isSnakeKeep l) =
      caseConvert '_' isSepSnake isSnakeKeep l :=
  caseConvert_idem '_' isSepSnake isSnakeKeep rfl
    (fun c hc => isAsciiUpper_eq_false_of_range (by have := isSnakeKeep_range hc; tauto))
    (fun c hc => toLower_eq_self_of_range (by have := isSnakeKeep_range hc; tauto))
    (fun c hc => isSepSnake_eq_false_of_range (isSnakeKeep_range hc)) l

/-! Path-layer lemmas: how `extname`/`basenameSuffix` behave on the
convention's output glued back onto the original extension. -/

theorem posixBase_no_slash (l : List Char) : ∀ c ∈ posixBase l, c ≠ '/' := by
  intro c hc
  unfold posixBase at hc
  rw [List.mem_reverse] at hc
  have := List.mem_takeWhile_imp hc
  simpa using this

theorem posixBase_eq_self {l : List Char} (h : ∀ c ∈ l, c ≠ '/') : posixBase l = l := by
  unfold posixBase
  have h1 : l.reverse.dropWhile (fun c => c = '/') = l.reverse := by
    rw [List.dropWhile_eq_self_iff]
    intro hl
    simp only [decide_eq_true_eq]
    have hm : l.reverse.get ⟨0, hl⟩ ∈ l.reverse := List.get_mem _ _ _
    rw [List.mem_reverse] at hm
    exact h _ hm
  rw [h1]
  have h2 : l.reverse.takeWhile (fun c => c ≠ '/') = l.reverse := by
    rw [List.takeWhile_eq_self_iff]
    intro x hx
    rw [List.mem_reverse] at hx
    simpa using h x hx
  rw [h2, List.reverse_reverse]

theorem extSplit_append (k r : List Char) (hr : ∀ c ∈ r, c ≠ '.') :
    extSplit (k ++ '.' :: r) = (k, '.' :: r) := by
  induction k with
  | nil =>
    rw [List.nil_append, extSplit]
    rw [if_pos ⟨rfl, by rw [List.all_eq_true]; intro x hx; simpa using hr x hx⟩]
  | cons c k ih =>
    rw [List.cons_append, extSplit]
    rw [if_neg ?_]
    · rw [ih]
    · rintro ⟨hc, hall⟩
      rw [List.all_eq_true] at hall
      have := hall '.' (by rw [List.mem_append]; right; exact List.mem_cons_self _ _)
      simp at this

theorem extSplit_no_dot {b : List Char} (h : ∀ c ∈ b, c ≠ '.') :
    extSplit b = (b, []) := by
  induction b with
  | nil => rfl
  | cons c rest ih =>
    rw [extSplit]
    rw [if_neg ?_]
    · rw [ih (fun x hx => h x (List.mem_cons_of_mem _ hx))]
    · rintro ⟨hc, _⟩
      exact h c (List.mem_cons_self _ _) hc

theorem extSplit_parts : ∀ b : List Char, (extSplit b).1 ++ (extSplit b).2 = b
  | [] => rfl
  | c :: rest => by
    rw [extSplit]
    by_cases h : c = '.' ∧ rest.all (fun d => d ≠ '.') = true
    · rw [if_pos h]
      rfl
    · rw [if_neg h]
      show c :: ((extSplit rest).1 ++ (extSplit rest).2) = c :: rest
      rw [extSplit_parts rest]

theorem extSplit_snd_shape :
    ∀ b : List Char, (extSplit b).2 = [] ∨
      ∃ r, (extSplit b).2 = '.' :: r ∧ ∀ c ∈ r, c ≠ '.'
  | [] => Or.inl rfl
  | c :: rest => by
    rw [extSplit]
    by_cases h : c = '.' ∧ rest.all (fun d => d ≠ '.') = true
    · rw [if_pos h]
      refine Or.inr ⟨rest, by rw [h.1], ?_⟩
      intro x hx
      have := List.all_eq_true.mp h.2 x hx
      simpa using this
    · rw [if_neg h]
      exact extSplit_snd_shape rest

/-- Every extension is empty or a dot followed by dot-free, slash-free
characters. -/
theorem extname_shape (p : String) :
    extname p = "" ∨
      ∃ r, (extname p).data = '.' :: r ∧ (∀ c ∈ r, c ≠ '.') ∧ ∀ c ∈ r, c ≠ '/' := by
  unfold extname
  by_cases hdd : posixBase p.data = ['.', '.']
  · rw [if_pos hdd]
    exact Or.inl rfl
  · rw [if_neg hdd]
    by_cases h1 : (extSplit (posixBase p.data)).1 = []
    · rw [if_pos h1]
      exact Or.inl rfl
    · rw [if_neg h1]
      rcases extSplit_snd_shape (posixBase p.data) with h2 | ⟨r, h2, hrdot⟩
      · rw [h2]
        exact Or.inl rfl
      · rw [h2]
        refine Or.inr ⟨r, rfl, hrdot, ?_⟩
        intro c hc
        apply posixBase_no_slash p.data
        rw [← extSplit_parts (posixBase p.data), List.mem_append, h2]
        exact Or.inr (List.mem_cons_of_mem _ hc)

theorem extname_eq_empty (s : String) (h1 : ∀ c ∈ s.data, c ≠ '.')
    (h2 : ∀ c ∈ s.data, c ≠ '/') : extname s = "" := by
  unfold extname
  rw [posixBase_eq_self h2]
  rw [if_neg ?_]
  · rw [extSplit_no_dot h1]
    by_cases hnil : s.data = []
    · rw [if_pos hnil]
    · rw [if_neg hnil]
  · intro hcontra
    exact h1 '.' (by rw [hcontra]; exact List.mem_cons_self _ _) rfl

theorem basenameSuffix_empty_ext (s : String) (h2 : ∀ c ∈ s.data, c ≠ '/') :
    basenameSuffix s "" = ⟨s.data⟩ := by
  unfold basenameSuffix
  rw [if_neg (by simp)]
  rw [posixBase_eq_self h2]

theorem ext_basename_append (k r : List Char)
    (hk : k ≠ []) (hkdot : ∀ c ∈ k, c ≠ '.') (hkslash : ∀ c ∈ k, c ≠ '/')
    (hrdot : ∀ c ∈ r, c ≠ '.') (hrslash : ∀ c ∈ r, c ≠ '/') :
    extname ⟨k ++ '.' :: r⟩ = ⟨'.' :: r⟩ ∧
    basenameSuffix ⟨k ++ '.' :: r⟩ ⟨'.' :: r⟩ = ⟨k⟩ := by
  have hns : ∀ c ∈ k ++ '.' :: r, c ≠ '/' := by
    intro c hc
    rcases List.mem_append.mp hc with hc' | hc'
    · exact hkslash c hc'
    · rcases List.mem_cons.mp hc' with rfl | hc''
      · decide
      · exact hrslash c hc''
  have hpb : posixBase (k ++ '.' :: r) = k ++ '.' :: r := posixBase_eq_self hns
  have hsplit := extSplit_append k r hrdot
  have hnotdd : ¬ (k ++ '.' :: r = ['.', '.']) := by
    intro heq
    cases k with
    | nil => exact hk rfl
    | cons c k' =>
      rw [List.cons_append] at heq
      have hc : c = '.' := by injection heq
      exact hkdot c (List.mem_cons_self _ _) hc
  constructor
  · show extname ⟨k ++ '.' :: r⟩ = _
    unfold extname
    show (if posixBase (k ++ '.' :: r) = ['.', '.'] then "" else _) = _
    rw [hpb, if_neg hnotdd, hsplit]
    rw [if_neg hk]
  · show basenameSuffix ⟨k ++ '.' :: r⟩ ⟨'.' :: r⟩ = _
    unfold basenameSuffix
    show (if ('.' :: r ≠ [] ∧ posixBase (k ++ '.' :: r) ≠ '.' :: r ∧
        List.IsSuffix ('.' :: r) (posixBase (k ++ '.' :: r))) then _ else _) = _
    rw [hpb]
    have hne : k ++ '.' :: r ≠ '.' :: r := by
      intro heq
      have hlen := congrArg List.length heq
      rw [List.length_append] at hlen
      have hkpos : 0 < k.length := List.length_pos.mpr hk
      omega
    rw [if_pos ⟨by simp, hne, ⟨k, rfl⟩⟩]
    have hlen : (k ++ '.' :: r).length - ('.' :: r).length = k.length := by
      rw [List.length_append]
      omega
    rw [hlen, List.take_left]

/-- Gluing a convention's output back onto the extension and normalizing
again reproduces the same string, provided the output base name is
nonempty or the extension is empty. -/
theorem caseConvert_convert_round (sep : Char) (cls keep : Char → Bool)
    (hKeepSep : keep sep = true)
    (hKeepDot : ∀ c, keep c = true → c ≠ '.')
    (hKeepSlash : ∀ c, keep c = true → c ≠ '/')
    (hidem : ∀ l, caseConvert sep cls keep (caseConvert sep cls keep l) =
      caseConvert sep cls keep l)
    (f : String)
    (hor : extname f = "" ∨
      (⟨caseConvert sep cls keep (basenameSuffix f (extname f)).data⟩ : String) ≠ "") :
    (⟨caseConvert sep cls keep
        (basenameSuffix
          (⟨caseConvert sep cls keep (basenameSuffix f (extname f)).data⟩ ++ extname f)
          (extname
            (⟨caseConvert sep cls keep (basenameSuffix f (extname f)).data⟩ ++
              extname f))).data⟩ : String) ++
      extname (⟨caseConvert sep cls keep (basenameSuffix f (extname f)).data⟩ ++ extname f) =
    ⟨caseConvert sep cls keep (basenameSuffix f (extname f)).data⟩ ++ extname f := by
  have hidemb := hidem (basenameSuffix f (extname f)).data
  have hkeep := caseConvert_all_keep sep cls keep hKeepSep (basenameSuffix f (extname f)).data
  generalize hK : caseConvert sep cls keep (basenameSuffix f (extname f)).data = K
    at hor hidemb hkeep ⊢
  have hKdot : ∀ c ∈ K, c ≠ '.' := fun c hc => hKeepDot c (hkeep c hc)
  have hKslash : ∀ c ∈ K, c ≠ '/' := fun c hc => hKeepSlash c (hkeep c hc)
  have hcK : caseConvert sep cls keep K = K := hidemb
  by_cases hext : extname f = ""
  · rw [hext, String.append_empty]
    have h1 : extname (⟨K⟩ : String) = "" := extname_eq_empty _ hKdot hKslash
    rw [h1, String.append_empty]
    have h2 : basenameSuffix (⟨K⟩ : String) "" = ⟨K⟩ := by
      rw [basenameSuffix_empty_ext _ hKslash]
    rw [h2]
    exact congrArg String.mk hcK
  · have hKne : (⟨K⟩ : String) ≠ "" := by
      rcases hor with h | h
      · exact absurd h hext
      · exact h
    have hkne : K ≠ [] := by
      intro hnil
      apply hKne
      rw [hnil]
    rcases extname_shape f with he | ⟨r, her, hrdot, hrslash⟩
    · exact absurd he hext
    · have hgeq : (⟨K⟩ : String) ++ extname f = (⟨K ++ '.' :: r⟩ : String) := by
        apply String.ext
        rw [String.data_append, her]
      rw [hgeq]
      obtain ⟨hext', hbase'⟩ :=
        ext_basename_append K r hkne hKdot hKslash hrdot hrslash
      rw [hext', hbase']
      show (⟨caseConvert sep cls keep K⟩ : String) ++ ⟨'.' :: r⟩ = _
      rw [hcK]
      apply String.ext
      rw [String.data_append]

theorem kebabKeep_ne_dot : ∀ c, isKebabKeep c = true → c ≠ '.' := fun c hc =>
  ne_dot_of_range (by have := isKebabKeep_range hc; tauto)

theorem kebabKeep_ne_slash : ∀ c, isKebabKeep c = true → c ≠ '/' := fun c hc =>
  ne_slash_of_range (by have := isKebabKeep_range hc; tauto)

theorem snakeKeep_ne_dot : ∀ c, isSnakeKeep c = true → c ≠ '.' := fun c hc =>
  ne_dot_of_range (by have := isSnakeKeep_range hc; tauto)

theorem snakeKeep_ne_slash : ∀ c, isSnakeKeep c = true → c ≠ '/' := fun c hc =>
  ne_slash_of_range (by have := isSnakeKeep_range hc; tauto)

/-- The kebab arm of `convertImageName`, written via `caseConvert`. -/
theorem convertImageName_kebab_eq (g : String) :
    convertImageName g NameCase.kebab =
      (⟨caseConvert '-' isSepKebab isKebabKeep
        (basenameSuffix g (extname g)).data⟩ : String) ++ extname g := rfl

/-- The snake arm of `convertImageName`, written via `caseConvert`. -/
theorem convertImageName_snake_eq (g : String) :
    convertImageName g NameCase.snake =
      (⟨caseConvert '_' isSepSnake isSnakeKeep
        (basenameSuffix g (extname g)).data⟩ : String) ++ extname g := rfl

/-- **C1, amended.**  `convertImageName` is total, and it is idempotent
for every file name and convention except when the converted base name is
empty while the extension is nonempty (the counterexample's dotfile case):
under `any` it is the identity, and otherwise
`convertImageName (convertImageName f c) c = convertImageName f c`
whenever `extname f = ""` or the converted base name is nonempty. -/
theorem convertImageName_idem_amended (f : String) (c : NameCase)
    (h : c = .any ∨ extname f = "" ∨ convertBase c (basenameSuffix f (extname f)) ≠ "") :
    convertImageName (convertImageName f c) c = convertImageName f c := by
  cases c with
  | any => rfl
  | kebab =>
    have hor : extname f = "" ∨
        (⟨caseConvert '-' isSepKebab isKebabKeep
          (basenameSuffix f (extname f)).data⟩ : String) ≠ "" := by
      rcases h with h | h | h
      · exact absurd h (by decide)
      · exact Or.inl h
      · exact Or.inr h
    rw [convertImageName_kebab_eq f, convertImageName_kebab_eq]
    exact caseConvert_convert_round '-' isSepKebab isKebabKeep rfl
      kebabKeep_ne_dot kebabKeep_ne_slash kebab_idem f hor
  | snake =>
    have hor : extname f = "" ∨
        (⟨caseConvert '_' isSepSnake isSnakeKeep
          (basenameSuffix f (extname f)).data⟩ : String) ≠ "" := by
      rcases h with h | h | h
      · exact absurd h (by decide)
      · exact Or.inl h
      · exact Or.inr h
    rw [convertImageName_snake_eq f, convertImageName_snake_eq]
    exact caseConvert_convert_round '_' isSepSnake isSnakeKeep rfl
      snakeKeep_ne_dot snakeKeep_ne_slash snake_idem f hor

/-- Witness for the amended C1: a kebab-case round trip on
`"My Photo.PNG"` and a snake-case one on `"a b.txt"`, with nonempty
converted base names. -/
theorem convertImageName_idem_amended_witness :
    convertImageName (convertImageName "My Photo.PNG" NameCase.kebab) NameCase.kebab =
      convertImageName "My Photo.PNG" NameCase.kebab ∧
    convertImageName (convertImageName "a b.txt" NameCase.snake) NameCase.snake =
      convertImageName "a b.txt" NameCase.snake :=
  ⟨convertImageName_idem_amended "My Photo.PNG" NameCase.kebab
    (Or.inr (Or.inr (by decide))),
   convertImageName_idem_amended "a b.txt" NameCase.snake
    (Or.inr (Or.inr (by decide)))⟩

/-! ## Claim C8: the `My Photo.PNG` scenario -/

/-- The manifest leaf key the generator derives from a file's base name
(`assets.ts` lines 308–319): the extension-stripped base name, camel-cased,
falling back to `"image"` when that is empty. -/
def leafKeyOf (fileName : String) : String :=
  jsOr (toCamel (basenameSuffix fileName (extname fileName))) "image"

/-- **C8.** Under the kebab-case convention, `"My Photo.PNG"` is renamed to
`"my-photo.PNG"` (base name kebab-cased, extension case preserved
verbatim), and the manifest leaf key derived from the renamed file is
`"myPhoto"`. -/
theorem convertImageName_myPhoto :
    convertImageName "My Photo.PNG" NameCase.kebab = "my-photo.PNG" ∧
    leafKeyOf "my-photo.PNG" = "myPhoto" := by
  constructor <;> decide

/-! ## Claim C1 (counterexample): normalization is not idempotent

`"!.png"` kebab-cases to `".png"` (empty base name, extension appended —
the spec's own "worst case"); a second pass sees `".png"` as an
extension-less dotfile and kebab-cases it to `"png"`. -/

/-- **C1, counterexample.**  `convertImageName` is not idempotent under
`kebab-case`: it maps `"!.png"` to `".png"` but `".png"` to `"png"`. -/
theorem convertImageName_not_idempotent_dotfile :
    convertImageName "!.png" NameCase.kebab = ".png" ∧
    convertImageName (convertImageName "!.png" NameCase.kebab) NameCase.kebab ≠
      convertImageName "!.png" NameCase.kebab := by
  constructor
  · decide
  · decide

/-! ## Claim C2: two distinct files differing only by case

`icon.png` and `Icon.png` can coexist on a case-sensitive file system.
`Icon.png` normalizes to `icon.png`, which exists — but the collision
guard (line 152) is skipped because the two names agree after
`toLowerCase()`, so the case-only two-step rename path (lines 162–171)
runs and silently replaces `icon.png` with `Icon.png`'s content. -/

/-- **C2.**  On the root `{icon.png ↦ 0, Icon.png ↦ 1}` (kebab-case,
walk order as listed) the rename engine does *not* raise the
name-collision error: it returns successfully, the rename map records
`Icon.png → icon.png`, and the file system ends with the single file
`icon.png` holding `Icon.png`'s content `1` — `icon.png`'s content `0` is
silently destroyed. -/
theorem renameImages_case_collision_silent_overwrite :
    renameImagesInDirectory false [("icon.png", 0), ("Icon.png", 1)] NameCase.kebab =
      .ok ([("icon.png", 1)], [("Icon.png", "icon.png")]) := by
  rfl

/-! ## Claim C4: duplicate destinations in the rename map

`Icon.png` and `ICON.png` both normalize to `icon.png`; both take the
case-only rename path (the collision guard never fires for case-equal
names), so the run succeeds and the returned map contains two distinct
originals with the same destination. -/

/-- **C4.**  On the root `{Icon.png ↦ 10, ICON.png ↦ 20}` (kebab-case) the
engine returns successfully with a rename map whose two entries share the
destination `icon.png` (the destination list is not duplicate-free), and
the second rename has overwritten the first file's content on disk. -/
theorem renameMap_duplicate_destinations :
    renameImagesInDirectory false [("Icon.png", 10), ("ICON.png", 20)] NameCase.kebab =
      .ok ([("icon.png", 20)], [("Icon.png", "icon.png"), ("ICON.png", "icon.png")]) ∧
    ¬ ([("Icon.png", "icon.png"), ("ICON.png", "icon.png")].map Prod.snd).Nodup := by
  refine ⟨rfl, ?_⟩
  decide

/-! ## Claim C3 (counterexample): the duplicate-detection unit keeps the
extension

`images/logo.png` under the base root and `images/logo.jpg` under the
public root have the same extension-stripped `RelativeKeyPath`
`images/logo`, yet generation succeeds: the sets compared at lines
256–276 hold full relative paths, extensions included. -/

/-- **C3, counterexample.**  With `images/logo.png` in the base root and
`images/logo.jpg` in the public root, the two extension-stripped
`RelativeKeyPath`s coincide but generation does not fail — it produces an
output (`.ok`), and in particular no duplicate-overlap error. -/
theorem duplicateDetection_ignores_stripped_collision :
    relKeyPath ["images", "logo.png"] = relKeyPath ["images", "logo.jpg"] ∧
    (generateImageIndexModel [["images", "logo.png"]] [["images", "logo.jpg"]]).isOk = true ∧
    isDupError (generateImageIndexModel [["images", "logo.png"]] [["images", "logo.jpg"]]) =
      false := by
  refine ⟨by decide, rfl, rfl⟩

/-! ## Claim C6 (counterexample): allocation follows the walk order

`a-b.png` and `a_b.png` share the candidate base `aB`.  The loop at lines
298–332 allocates in the order `walk` listed the files (no sort), so the
identifier a given file receives depends on the listing order. -/

/-- **C6, counterexample.**  The same two-file set listed in the two
possible walk orders assigns different identifiers to `a-b.png`
(`"aB"` vs `"aB2"`): repeated runs are *not* listing-order-independent. -/
theorem assignIdents_order_dependent :
    (assignIdents [["a-b.png"], ["a_b.png"]] []).lookup ["a-b.png"] = some "aB" ∧
    (assignIdents [["a_b.png"], ["a-b.png"]] []).lookup ["a-b.png"] = some "aB2" ∧
    (assignIdents [["a-b.png"], ["a_b.png"]] []).lookup ["a-b.png"] ≠
      (assignIdents [["a_b.png"], ["a-b.png"]] []).lookup ["a-b.png"] := by
  refine ⟨rfl, rfl, by decide⟩

/-! ## Claim C9: directory/file key collision in `setInTree`

When a file's leaf key equals a directory's key at the same level, the
source's behavior depends on the insertion order: directory first, then
file, overwrites the whole subtree (last write wins); file first, then
directory, descends into a string leaf and raises a strict-mode
`TypeError`. -/

/-- **C9, counterexample.**  Inserting the leaf `"v1"` at key `"a"` and
then inserting at path `a/b` raises the `TypeError` — the claimed
error-free last-write-wins overwrite does not happen in this order. -/
theorem setInTree_file_then_dir_type_error :
    setInTree (.obj (.cons "a" (.str "v1") .nil)) ["a", "b"] "v2" = .error () := by
  rfl

/-- **C9, amended.**  At a directory/file key collision the behavior is
order-dependent: inserting the file leaf *after* the directory subtree
replaces the subtree without error (last write wins), while inserting the
directory path *after* the file leaf raises a strict-mode `TypeError`
instead of overwriting. -/
theorem setInTree_collision_order_dependent :
    setInTree (.obj .nil) ["a", "b"] "v1" =
      .ok (.obj (.cons "a" (.obj (.cons "b" (.str "v1") .nil)) .nil)) ∧
    setInTree (.obj (.cons "a" (.obj (.cons "b" (.str "v1") .nil)) .nil)) ["a"] "v2" =
      .ok (.obj (.cons "a" (.str "v2") .nil)) ∧
    setInTree (.obj (.cons "a" (.str "v2") .nil)) ["a", "b"] "v3" = .error () := by
  refine ⟨rfl, rfl, rfl⟩

end DevKit
